import Mathlib

/-! folha-camara-maceio: row normalisation and link extraction

A shallow embedding of `src/main.go`.

Modelling conventions.

* Go strings are modelled by Lean `String`s, that is, as sequences of characters
  (the program only handles UTF-8 text, and every separator it searches for is
  ASCII, so byte offsets and character offsets cut at the same places).
* The library functions the program calls (`strings.Split`, `strings.Replace`
  with `n = -1`, `strings.HasSuffix`, `regexp.FindString`) are modelled from their
  documented behaviour, as executable functions on character lists.
* A goquery selection of one `tr` element is modelled by what the program reads
  from it; a document is the list of its `tr` elements in document order.
* The network, standard output and the CSV writer are an explicit `World`.
* `log.Fatalf` and run-time panics are the `error` results of `Except`.
-/

namespace Folha

/-! ## Library functions: package `strings` -/

/-- Prepend a character to the first piece of a list of pieces. -/
def consHead (c : Char) : List (List Char) → List (List Char)
  | [] => [[c]]
  | p :: ps => (c :: p) :: ps

/-- Scan of `strings.Split` for a non-empty separator: pieces between the
non-overlapping occurrences of `sep`, found from left to right.  The number
argument counts the characters of an occurrence of `sep` still to be skipped. -/
def splitGo (sep : List Char) : List Char → Nat → List (List Char)
  | [], _ => [[]]
  | _ :: cs, k + 1 => splitGo sep cs k
  | c :: cs, 0 =>
    if sep.isPrefixOf (c :: cs) then [] :: splitGo sep cs (sep.length - 1)
    else consHead c (splitGo sep cs 0)

/-- Go `strings.Split(s, sep)`: with an empty separator the string is exploded
into its characters, otherwise it is cut at every occurrence of `sep`. -/
def Split (s sep : String) : List String :=
  if sep.data = [] then s.data.map (fun c => String.mk [c])
  else (splitGo sep.data s.data 0).map String.mk

/-- Scan of `strings.Replace(s, old, new, -1)` for a non-empty `old`. -/
def replaceGo (old new : List Char) : List Char → Nat → List Char
  | [], _ => []
  | _ :: cs, k + 1 => replaceGo old new cs k
  | c :: cs, 0 =>
    if old.isPrefixOf (c :: cs) then new ++ replaceGo old new cs (old.length - 1)
    else c :: replaceGo old new cs 0

/-- Go `strings.Replace(s, old, new, -1)`: every non-overlapping occurrence of
`old` replaced by `new`; an empty `old` matches before every character and at the
end of the string. -/
def ReplaceAll (s old new : String) : String :=
  if old = new then s
  else if old.data = [] then String.mk (new.data ++ s.data.flatMap (fun c => c :: new.data))
  else String.mk (replaceGo old.data new.data s.data 0)

/-- Go `strings.HasSuffix(s, suffix)`:
`len(s) >= len(suffix) && s[len(s)-len(suffix):] == suffix`. -/
def HasSuffix (s suffix : String) : Bool :=
  decide (suffix.data.length ≤ s.data.length) &&
    decide (s.data.drop (s.data.length - suffix.data.length) = suffix.data)

/-! ## Failures, documents, world -/

/-- The ways a run stops abnormally. -/
inductive Failure where
  /-- Fatal exit "erro baixando página principal": `http.Get` returned an error. -/
  | fatalDownload
  /-- Fatal exit "código de status inválido": the status code is not 200. -/
  | fatalStatus (code : Nat)
  /-- Fatal exit "erro criando goquery doc": the page could not be parsed. -/
  | fatalDoc
  /-- Run-time panic: index `index` out of range for a slice of length `len`. -/
  | panicIndex (index len : Nat)
  deriving DecidableEq, Repr

instance instDecidableEqExcept {ε α : Type} [DecidableEq ε] [DecidableEq α] :
    DecidableEq (Except ε α)
  | .ok a, .ok b =>
    if h : a = b then isTrue (by rw [h]) else isFalse (fun h2 => h (Except.ok.inj h2))
  | .error a, .error b =>
    if h : a = b then isTrue (by rw [h]) else isFalse (fun h2 => h (Except.error.inj h2))
  | .ok _, .error _ => isFalse (fun h => Except.noConfusion h)
  | .error _, .ok _ => isFalse (fun h => Except.noConfusion h)

/-- Go slice indexing `xs[i]`, which panics when `i` is out of range. -/
def index (xs : List String) (i : Nat) : Except Failure String :=
  match xs.get? i with
  | some x => .ok x
  | none => .error (.panicIndex i xs.length)

/-- One `tr` element as the program observes it through goquery. -/
structure Selection where
  /-- Result of `s.Attr("onclick")`: `none` when the attribute is absent. -/
  onclick : Option String
  /-- Result of `s.Find("td").First().Text()`. -/
  firstTd : String
  /-- Result of `s.Find("td").First().Next().Text()`. -/
  nextTd : String
  deriving DecidableEq, Repr

/-- A parsed page: the selection `doc.Find("tr")`, in document order. -/
abbrev Document := List Selection

/-- Go `(*Selection).Each`: call `f i s` on every element with its position,
threading the variables the closure captures; a panic in `f` ends the loop. -/
def eachFrom {σ : Type} (f : Nat → Selection → σ → Except Failure σ) :
    Nat → List Selection → σ → Except Failure σ
  | _, [], st => .ok st
  | i, s :: ss, st =>
    match f i s st with
    | .ok st1 => eachFrom f (i + 1) ss st1
    | .error e => .error e

/-- The loop `sel.Each(f)` started at position 0. -/
def Each {σ : Type} (sel : List Selection) (f : Nat → Selection → σ → Except Failure σ)
    (st : σ) : Except Failure σ :=
  eachFrom f 0 sel st

/-! ## ImprimeItemFolha -/

/-- The keys of the map `camposDinheiro`. -/
def camposDinheiro : List String :=
  ["Abono", "Remuneração", "Eventuais", "Desconto", "Salário Líquido"]

/-- The closure passed to `Each` in `ImprimeItemFolha`; the captured variable is
the slice `item`. -/
def itemFolhaRow (i : Nat) (s : Selection) (item : List String) :
    Except Failure (List String) :=
  if i = 0 then .ok item                       -- header row
  else
    let c := s.firstTd
    if c = "CPF" then .ok item
    else
      let v := s.nextTd
      if c = "Referência" then do
        let ref := Split v " / "
        let r0 ← index ref 0
        let item := item ++ [r0]
        let r1 ← index ref 1
        let item := item ++ [r1]
        pure item
      else if camposDinheiro.contains c then do
        let d ← index (Split v " ") 1
        let d := ReplaceAll d "." ""
        let d := ReplaceAll d "," "."
        pure (item ++ [d])
      else .ok (item ++ [v])

/-- The row loop of `ImprimeItemFolha`: the record `item` built from a parsed page. -/
def itemFolha (doc : Document) : Except Failure (List String) :=
  Each doc itemFolhaRow []

/-! ## Library functions: package `regexp` -/

/-- The pieces of the patterns used by the program: a literal character, or a
greedy star over a class of characters. -/
inductive Item where
  | lit (c : Char)
  | star (cls : Char → Bool)

/-- Class of `.` (without the `s` flag): any character but the line feed. -/
def anyChar (c : Char) : Bool := decide (c ≠ '\n')

/-- Class of `\d`: the ASCII digits. -/
def digit (c : Char) : Bool := decide ('0' ≤ c) && decide (c ≤ '9')

/-- The compiled pattern of `reLinks`, `http.*ano=\d*`. -/
def reLinks : List Item :=
  [.lit 'h', .lit 't', .lit 't', .lit 'p', .star anyChar,
   .lit 'a', .lit 'n', .lit 'o', .lit '=', .star digit]

/-- Greedy star of a backtracking matcher: consume one more character of the class
when the rest of the pattern (the continuation `k`) still matches afterwards,
otherwise stop here. -/
def starLoop (cls : Char → Bool) (k : List Char → Option (List Char)) :
    List Char → Option (List Char)
  | [] => k []
  | x :: xs =>
    if cls x then
      match starLoop cls k xs with
      | some m => some (x :: m)
      | none => k (x :: xs)
    else k (x :: xs)

/-- Match of a pattern anchored at the start of the text, as a backtracking engine
finds it first; the result is the matched text. -/
def matchHere : List Item → List Char → Option (List Char)
  | [], _ => some []
  | .lit c :: rest, s =>
    match s with
    | [] => none
    | x :: xs => if x = c then (matchHere rest xs).map (fun m => x :: m) else none
  | .star cls :: rest, s => starLoop cls (matchHere rest) s

/-- Leftmost match: the first start position at which the pattern matches. -/
def findFirst (re : List Item) : List Char → Option (List Char)
  | [] => matchHere re []
  | x :: xs =>
    match matchHere re (x :: xs) with
    | some m => some m
    | none => findFirst re xs

/-- Go `(*Regexp).FindString`: the text of the leftmost match, or the empty string
when there is no match. -/
def FindString (re : List Item) (s : String) : String :=
  match findFirst re s.data with
  | some m => String.mk m
  | none => ""

/-! ## The world: network, standard output, CSV writer -/

/-- What `http.Get` followed by `goquery.NewDocumentFromReader` gives for a URL. -/
structure Response where
  /-- Field `resp.StatusCode`. -/
  StatusCode : Nat
  /-- Result of `goquery.NewDocumentFromReader(resp.Body)`; `none` is its error. -/
  doc : Option Document

/-- The remote site: `none` is an error returned by `http.Get`. -/
abbrev Web := String → Option Response

/-- The effects of a run so far. -/
structure World where
  /-- URLs requested with `http.Get`, oldest first. -/
  requests : List String
  /-- Lines printed with `fmt.Println`, oldest first. -/
  stdout : List String
  /-- Records handed to `writer.Write`, oldest first. -/
  csv : List (List String)
  deriving DecidableEq, Repr

/-- The common start of both functions: download the page, check the status,
build the goquery document. -/
def baixa (web : Web) (pagina : String) : Except Failure Document :=
  match web pagina with
  | none => .error .fatalDownload
  | some resp =>
    if resp.StatusCode ≠ 200 then .error (.fatalStatus resp.StatusCode)
    else
      match resp.doc with
      | none => .error .fatalDoc
      | some doc => .ok doc

/-- Function `ImprimeItemFolha(pagina, writer)`. -/
def ImprimeItemFolha (web : Web) (pagina : String) (w : World) :
    Except Failure Unit × World :=
  let w := { w with requests := w.requests ++ [pagina] }
  match baixa web pagina with
  | .error e => (.error e, w)
  | .ok doc =>
    match Each doc itemFolhaRow [] with
    | .error e => (.error e, w)
    | .ok item => (.ok (), { w with csv := w.csv ++ [item] })

/-! ## ImprimeLinks -/

/-- The closure passed to `Each` in `ImprimeLinks`; the captured variables are the
counter `n` and the lines printed so far by this call.  The counter is a natural
number: it counts rows of a document held in memory, far fewer than `2 ^ 63`. -/
def linksRow (ano : String) (_i : Nat) (s : Selection) (st : Nat × List String) :
    Except Failure (Nat × List String) :=
  match s.onclick with
  | some val =>
    let link := FindString reLinks val
    if HasSuffix link ano then .ok (st.1 + 1, st.2 ++ [link])
    else .ok st
  | none => .ok st

/-- The row loop of `ImprimeLinks` on a parsed page: the final counter `n` and the
lines printed. -/
def links (doc : Document) (ano : String) : Except Failure (Nat × List String) :=
  Each doc (linksRow ano) (0, [])

/-- Function `ImprimeLinks(pagina, ano)`: the returned count and the new world. -/
def ImprimeLinks (web : Web) (pagina ano : String) (w : World) :
    Except Failure Nat × World :=
  let w := { w with requests := w.requests ++ [pagina] }
  match baixa web pagina with
  | .error e => (.error e, w)
  | .ok doc =>
    match links doc ano with
    | .error e => (.error e, w)
    | .ok (n, out) => (.ok n, { w with stdout := w.stdout ++ out })

/-! ## main -/

/-- The constant `mainPage`. -/
def mainPage : String :=
  "https://www.camarademaceio.al.gov.br/transparencia/portal/salarios-subsidiosx"

/-- The URL `fmt.Sprintf("%s&pagina=%d", mainPage, p)`. -/
def paginaURL (p : Int) : String :=
  mainPage ++ "&pagina=" ++ toString p

/-- The increment `p++` on a Go `int` (64 bits, two's complement). -/
def incInt (p : Int) : Int :=
  (p + 1 + 2 ^ 63) % 2 ^ 64 - 2 ^ 63

/-- The loop `for p := 1; ImprimeLinks(..., p) > 0; p++` of `main`, from page `p`.
The first argument bounds the number of iterations; `none` means the bound was
reached with the loop still running. -/
def extrairLinksLoop (web : Web) (ano : String) :
    Nat → Int → World → Option (Except Failure Unit × World)
  | 0, _, _ => none
  | fuel + 1, p, w =>
    match ImprimeLinks web (paginaURL p) ano w with
    | (.error e, w1) => some (.error e, w1)
    | (.ok n, w1) =>
      if n > 0 then extrairLinksLoop web ano fuel (incInt p) w1
      else some (.ok (), w1)

/-- The branch `case *extrairLinks` of `main`: the loop started at `p := 1`. -/
def extrairLinksMain (web : Web) (ano : String) (fuel : Nat) (w : World) :
    Option (Except Failure Unit × World) :=
  extrairLinksLoop web ano fuel 1 w

/-- The slice `cabecalho` of `main`. -/
def cabecalho : List String :=
  ["matricula", "mes", "ano", "vinculo", "nome", "cargo",
   "lotacao", "remunercao", "abono", "eventuais", "desconto",
   "salario_liquido"]

/-- The loop `for s.Scan() ...` of `main` over the lines of standard input. -/
def processarLoop (web : Web) : List String → World → Except Failure Unit × World
  | [], w => (.ok (), w)
  | linha :: resto, w =>
    match ImprimeItemFolha web linha w with
    | (.error e, w1) => (.error e, w1)
    | (.ok _, w1) => processarLoop web resto w1

/-- The branch `case *processarLinks` of `main`: the header is written first, then
one record per input line. -/
def processarLinksMain (web : Web) (stdin : List String) (w : World) :
    Except Failure Unit × World :=
  processarLoop web stdin { w with csv := w.csv ++ [cabecalho] }

/-! ## The claims' wording, as definitions -/

/-- Spec wording: the second token of a text split on the space character, that
is, what stands between the first space and the next one (or the end). -/
def segundoToken (v : List Char) : List Char :=
  ((v.dropWhile (fun c => decide (c ≠ ' '))).drop 1).takeWhile (fun c => decide (c ≠ ' '))

/-- Spec wording: the normalised amount of a monetary value: the second token,
with every `.` deleted and then every `,` replaced by `.`. -/
def valorMonetario (v : String) : String :=
  String.mk (((segundoToken v.data).filter (fun c => decide (c ≠ '.'))).map
    (fun c => if c = ',' then '.' else c))

/-- Spec wording: what a row after the header contributes to the record: nothing
for a `CPF` row, the first and second piece of the value split on ` / ` for a
`Referência` row, the normalised amount for a monetary row, the raw value for any
other row.  It is `none` where the value lacks the piece the wording names. -/
def contribuicao (s : Selection) : Option (List String) :=
  if s.firstTd = "CPF" then some []
  else if s.firstTd = "Referência" then
    match Split s.nextTd " / " with
    | p0 :: p1 :: _ => some [p0, p1]
    | _ => none
  else if s.firstTd ∈ camposDinheiro then
    if ' ' ∈ s.nextTd.data then some [valorMonetario s.nextTd] else none
  else some [s.nextTd]

/-- Spec wording: the concatenation, in row order, of the contributions of rows. -/
def registro : List Selection → Option (List String)
  | [] => some []
  | s :: ss =>
    match contribuicao s, registro ss with
    | some a, some b => some (a ++ b)
    | _, _ => none

/-- Spec wording: the table with every non-header row labelled `CPF` removed. -/
def semCPF : Document → Document
  | [] => []
  | cab :: linhas => cab :: linhas.filter (fun s => decide (s.firstTd ≠ "CPF"))

/-- Spec wording: a row whose value lacks the separator its label calls for. -/
def malFormada (s : Selection) : Prop :=
  (s.firstTd = "Referência" ∧ ¬ (" / " : String).data <:+: s.nextTd.data) ∨
    (s.firstTd ∈ camposDinheiro ∧ ' ' ∉ s.nextTd.data)

instance instDecidableMalFormada (s : Selection) : Decidable (malFormada s) := by
  unfold malFormada
  exact inferInstance

/-- The texts a pattern denotes: a literal is itself, a star is any run of
characters of its class. -/
def Lang : List Item → List Char → Prop
  | [], m => m = []
  | .lit c :: rest, m => ∃ m1, m = c :: m1 ∧ Lang rest m1
  | .star cls :: rest, m =>
    ∃ a b, m = a ++ b ∧ (∀ x ∈ a, cls x = true) ∧ Lang rest b

/-- Spec wording: a text contains no match of the pattern. -/
def semMatch (re : List Item) (val : String) : Prop :=
  ∀ m, m <:+: val.data → ¬ Lang re m

/-- Spec wording: the links kept on a page: the links of the rows that have an
`onclick` attribute, in row order, that end with the requested year. -/
def mantidos (doc : Document) (ano : String) : List String :=
  ((doc.filterMap (fun s => s.onclick)).map (FindString reLinks)).filter
    (fun link => decide (ano.data <:+ link.data))

/-- Spec wording: the 12 field names of `PayrollRecord`, in the declared order. -/
def camposPayrollRecord : List String :=
  ["matricula", "mes", "ano", "vinculo", "nome", "cargo", "lotacao", "remuneracao",
   "abono", "eventuais", "desconto", "salario_liquido"]

/-! ## A small site, for concrete runs -/

/-- Listing pages of a small site: page 1 has one link row, the others have none. -/
def paginasExemplo (p : Nat) : Document :=
  if p = 1 then [⟨none, "", ""⟩, ⟨some "location='http://x/?ano=2020'", "", ""⟩] else []

/-- The small site itself: every URL answers with status 200. -/
def webExemplo : Web := fun url =>
  if url = paginaURL 1 then some ⟨200, some (paginasExemplo 1)⟩
  else some ⟨200, some []⟩

/-! ## Lemmas on the library functions -/

theorem splitGo_ne_nil (sep : List Char) (s : List Char) (k : Nat) :
    splitGo sep s k ≠ [] := by
  induction s generalizing k with
  | nil => simp [splitGo]
  | cons c cs ih =>
    cases k with
    | succ k => simpa [splitGo] using ih k
    | zero =>
      by_cases h : sep.isPrefixOf (c :: cs) = true
      · simp [splitGo, h]
      · have h1 := ih 0
        cases hg : splitGo sep cs 0 with
        | nil => exact absurd hg h1
        | cons p ps => simp [splitGo, h, hg, consHead]

theorem length_consHead (c : Char) (l : List (List Char)) (h : l ≠ []) :
    (consHead c l).length = l.length := by
  cases l with
  | nil => exact absurd rfl h
  | cons p ps => rfl

theorem splitGo_cons_zero (sep : List Char) (c : Char) (cs : List Char) :
    splitGo sep (c :: cs) 0 =
      if sep.isPrefixOf (c :: cs) then [] :: splitGo sep cs (sep.length - 1)
      else consHead c (splitGo sep cs 0) := rfl

/-- A string in which the separator occurs splits into at least two pieces. -/
theorem two_le_length_splitGo (sep a b : List Char) (hsep : sep ≠ []) :
    2 ≤ (splitGo sep (a ++ sep ++ b) 0).length := by
  induction a with
  | nil =>
    cases sep with
    | nil => exact absurd rfl hsep
    | cons x xs =>
      have h1 := splitGo_ne_nil (x :: xs) (xs ++ b) xs.length
      have : 0 < (splitGo (x :: xs) (xs ++ b) xs.length).length := List.length_pos.mpr h1
      simp [splitGo]
      omega
  | cons c cs ih =>
    have e : (c :: cs) ++ sep ++ b = c :: (cs ++ sep ++ b) := rfl
    rw [e, splitGo_cons_zero]
    by_cases h : sep.isPrefixOf (c :: (cs ++ sep ++ b)) = true
    · have h1 := splitGo_ne_nil sep (cs ++ sep ++ b) (sep.length - 1)
      have : 0 < (splitGo sep (cs ++ sep ++ b) (sep.length - 1)).length :=
        List.length_pos.mpr h1
      rw [if_pos h, List.length_cons]
      omega
    · rw [if_neg h, length_consHead _ _ (splitGo_ne_nil _ _ _)]
      exact ih

/-- A string in which the separator does not occur is its own single piece. -/
theorem splitGo_single_piece (sep s : List Char) (h : ¬ sep <:+: s) :
    splitGo sep s 0 = [s] := by
  induction s with
  | nil => simp [splitGo]
  | cons c cs ih =>
    have h1 : ¬ sep.isPrefixOf (c :: cs) = true := by
      intro hp
      exact h (List.isPrefixOf_iff_prefix.mp hp).isInfix
    have h2 : ¬ sep <:+: cs := by
      intro hi
      obtain ⟨u, v, huv⟩ := hi
      exact h ⟨c :: u, v, by simp [← huv]⟩
    rw [splitGo_cons_zero, if_neg h1, ih h2]
    rfl

theorem splitGo_single_cons (c0 x : Char) (xs : List Char) :
    splitGo [c0] (x :: xs) 0 =
      if x = c0 then [] :: splitGo [c0] xs 0 else consHead x (splitGo [c0] xs 0) := by
  rw [splitGo_cons_zero]
  by_cases h : x = c0
  · subst h; simp
  · have h2 : ¬ c0 = x := fun e => h e.symm
    simp [h, h2]

theorem head_splitGo_single (c0 : Char) (s : List Char) :
    (splitGo [c0] s 0).head? = some (s.takeWhile (fun c => decide (c ≠ c0))) := by
  induction s with
  | nil => simp [splitGo]
  | cons x xs ih =>
    rw [splitGo_single_cons]
    by_cases h : x = c0
    · simp [h]
    · rw [if_neg h]
      cases hg : splitGo [c0] xs 0 with
      | nil => exact absurd hg (splitGo_ne_nil _ _ _)
      | cons p ps =>
        rw [hg] at ih
        simp only [List.head?_cons, Option.some.injEq] at ih
        simp [consHead, h, ih]

theorem tail_splitGo_single (c0 : Char) (s : List Char) (h : c0 ∈ s) :
    (splitGo [c0] s 0).tail =
      splitGo [c0] ((s.dropWhile (fun c => decide (c ≠ c0))).drop 1) 0 := by
  induction s with
  | nil => simp at h
  | cons x xs ih =>
    rw [splitGo_single_cons]
    by_cases hx : x = c0
    · simp [hx]
    · rw [if_neg hx]
      have hm : c0 ∈ xs := by
        rcases List.mem_cons.mp h with e | e
        · exact absurd e.symm hx
        · exact e
      cases hg : splitGo [c0] xs 0 with
      | nil => exact absurd hg (splitGo_ne_nil _ _ _)
      | cons p ps =>
        have ih2 := ih hm
        rw [hg] at ih2
        simp only [List.tail_cons] at ih2
        simp [consHead, hx, ih2]

theorem get?_one_splitGo_space (v : List Char) (h : ' ' ∈ v) :
    (splitGo [' '] v 0).get? 1 = some (segundoToken v) := by
  have h1 := tail_splitGo_single ' ' v h
  have h2 := head_splitGo_single ' ' ((v.dropWhile (fun c => decide (c ≠ ' '))).drop 1)
  rw [← h1] at h2
  cases hg : splitGo [' '] v 0 with
  | nil => exact absurd hg (splitGo_ne_nil _ _ _)
  | cons p ps =>
    rw [hg] at h2
    cases ps with
    | nil => simp at h2
    | cons q qs =>
      simp only [List.tail_cons, List.head?_cons, Option.some.injEq] at h2
      simp [segundoToken, h2]

theorem replaceGo_single (c0 : Char) (new s : List Char) :
    replaceGo [c0] new s 0 = s.flatMap (fun c => if c = c0 then new else [c]) := by
  induction s with
  | nil => simp [replaceGo]
  | cons x xs ih =>
    by_cases h : x = c0
    · subst h
      simp [replaceGo, ih]
    · have h2 : ¬ c0 = x := fun e => h e.symm
      simp [replaceGo, ih, h, h2]

/-- Deleting a character with `ReplaceAll` keeps exactly the other characters. -/
theorem ReplaceAll_delete_dot (d : String) :
    ReplaceAll d "." "" = String.mk (d.data.filter (fun c => decide (c ≠ '.'))) := by
  have h1 : ("." : String) ≠ "" := by decide
  have h2 : ("." : String).data = ['.'] := rfl
  have h3 : ("" : String).data = [] := rfl
  simp only [ReplaceAll, if_neg h1, h2, h3]
  rw [if_neg (by simp), replaceGo_single]
  congr 1
  induction d.data with
  | nil => rfl
  | cons x xs ih =>
    by_cases hx : x = '.'
    · simp [hx, ih]
    · simp [hx, ih]

/-- Replacing the comma by the dot with `ReplaceAll` maps the text character by
character. -/
theorem ReplaceAll_comma_dot (d : String) :
    ReplaceAll d "," "." =
      String.mk (d.data.map (fun c => if c = ',' then '.' else c)) := by
  have h1 : ("," : String) ≠ "." := by decide
  have h2 : ("," : String).data = [','] := rfl
  have h3 : ("." : String).data = ['.'] := rfl
  simp only [ReplaceAll, if_neg h1, h2, h3]
  rw [if_neg (by simp), replaceGo_single]
  congr 1
  induction d.data with
  | nil => rfl
  | cons x xs ih =>
    by_cases hx : x = ','
    · simp [hx, ih]
    · simp [hx, ih]

/-! ## Rows of ImprimeItemFolha -/

theorem Split_space (v : String) :
    Split v " " = (splitGo [' '] v.data 0).map String.mk := by
  have h : (" " : String).data = [' '] := rfl
  simp [Split, h]

theorem Split_barra (v : String) :
    Split v " / " = (splitGo [' ', '/', ' '] v.data 0).map String.mk := by
  have h : (" / " : String).data = [' ', '/', ' '] := rfl
  simp [Split, h]

theorem ne_CPF_of_mem_camposDinheiro (c : String) (h : c ∈ camposDinheiro) :
    c ≠ "CPF" ∧ c ≠ "Referência" := by
  simp only [camposDinheiro, List.mem_cons, List.mem_singleton, List.not_mem_nil,
    or_false] at h
  rcases h with h | h | h | h | h <;> subst h <;> decide

theorem itemFolhaRow_dinheiro (i : Nat) (s : Selection) (item : List String)
    (hi : i ≠ 0) (hl : s.firstTd ∈ camposDinheiro) :
    itemFolhaRow i s item =
      (index (Split s.nextTd " ") 1).map
        (fun d => item ++ [ReplaceAll (ReplaceAll d "." "") "," "."]) := by
  obtain ⟨h1, h2⟩ := ne_CPF_of_mem_camposDinheiro _ hl
  have h3 : camposDinheiro.contains s.firstTd = true := by
    simpa using hl
  simp only [itemFolhaRow, if_neg hi, if_neg h1, if_neg h2, h3, if_true]
  cases index (Split s.nextTd " ") 1 <;> rfl

theorem itemFolhaRow_referencia (i : Nat) (s : Selection) (item : List String)
    (hi : i ≠ 0) (hl : s.firstTd = "Referência") :
    itemFolhaRow i s item =
      match index (Split s.nextTd " / ") 0, index (Split s.nextTd " / ") 1 with
      | .ok r0, .ok r1 => .ok (item ++ [r0, r1])
      | .error e, _ => .error e
      | .ok _, .error e => .error e := by
  have h1 : s.firstTd ≠ "CPF" := by rw [hl]; decide
  simp only [itemFolhaRow, if_neg hi, if_neg h1, hl, if_true]
  cases index (Split s.nextTd " / ") 0 <;> cases index (Split s.nextTd " / ") 1 <;>
    simp [bind, Except.bind, pure, Except.pure]

theorem Split_barra_single_piece (v : String)
    (h : ¬ (" / " : String).data <:+: v.data) : Split v " / " = [v] := by
  rw [Split_barra, splitGo_single_piece _ _ h]
  rfl

theorem Split_space_single_piece (v : String) (h : ' ' ∉ v.data) : Split v " " = [v] := by
  have h2 : ¬ [' '] <:+: v.data := by
    intro hi
    obtain ⟨a, b, hab⟩ := hi
    exact h (by rw [← hab]; simp)
  rw [Split_space, splitGo_single_piece _ _ h2]
  rfl

theorem exists_Split_barra (v : String) (h : (" / " : String).data <:+: v.data) :
    ∃ p0 p1 rest, Split v " / " = p0 :: p1 :: rest := by
  obtain ⟨a, b, hab⟩ := h
  have h2 := two_le_length_splitGo (" / " : String).data a b (by decide)
  rw [hab] at h2
  rw [Split_barra]
  have e : (" / " : String).data = [' ', '/', ' '] := rfl
  rw [e] at h2
  cases hg : splitGo [' ', '/', ' '] v.data 0 with
  | nil => rw [hg] at h2; simp at h2
  | cons p ps =>
    cases ps with
    | nil => rw [hg] at h2; simp at h2
    | cons q qs => exact ⟨String.mk p, String.mk q, qs.map String.mk, rfl⟩

theorem get?_one_Split_space (v : String) (hv : ' ' ∈ v.data) :
    (Split v " ").get? 1 = some (String.mk (segundoToken v.data)) := by
  have h := get?_one_splitGo_space v.data hv
  rw [Split_space]
  simp only [List.get?_eq_getElem?, List.getElem?_map] at h ⊢
  rw [h]
  rfl

theorem itemFolhaRow_dinheiro_ok (i : Nat) (s : Selection) (item : List String)
    (hi : i ≠ 0) (hl : s.firstTd ∈ camposDinheiro) (hv : ' ' ∈ s.nextTd.data) :
    itemFolhaRow i s item = .ok (item ++ [valorMonetario s.nextTd]) := by
  rw [itemFolhaRow_dinheiro i s item hi hl]
  simp only [index, get?_one_Split_space _ hv, ReplaceAll_delete_dot, ReplaceAll_comma_dot]
  rfl

/-- Claim C1: in `ImprimeItemFolha`, a non-header row whose label is one of the
monetary labels and whose value contains a space contributes exactly one field, the
second space-separated token of the value with every `.` deleted and then every
`,` replaced by `.`; for the value `R$ 1.234,56` the field is `1234.56`. -/
theorem C1_monetary_row (i : Nat) (s : Selection) (item : List String)
    (hi : i ≠ 0) (hl : s.firstTd ∈ camposDinheiro) (hv : ' ' ∈ s.nextTd.data) :
    itemFolhaRow i s item = .ok (item ++ [valorMonetario s.nextTd]) ∧
      (Split s.nextTd " ").get? 1 = some (String.mk (segundoToken s.nextTd.data)) ∧
      (s.nextTd = "R$ 1.234,56" → itemFolhaRow i s item = .ok (item ++ ["1234.56"])) := by
  have ht := get?_one_Split_space s.nextTd hv
  have hr := itemFolhaRow_dinheiro_ok i s item hi hl hv
  refine ⟨hr, ht, ?_⟩
  intro hval
  have e : valorMonetario "R$ 1.234,56" = "1234.56" := by decide
  rw [hr, hval, e]

/-- Witness for the monetary row: the row `Abono`, `R$ 1.234,56`. -/
theorem C1_monetary_row_witness :
    (1 ≠ 0 ∧ "Abono" ∈ camposDinheiro ∧ ' ' ∈ ("R$ 1.234,56" : String).data) ∧
      itemFolhaRow 1 ⟨none, "Abono", "R$ 1.234,56"⟩ ["x"] = .ok (["x"] ++ ["1234.56"]) :=
  ⟨⟨by decide, by decide, by decide⟩,
    (C1_monetary_row 1 ⟨none, "Abono", "R$ 1.234,56"⟩ ["x"] (by decide) (by decide)
      (by decide)).2.2 rfl⟩

/-- Claim C2: in `ImprimeItemFolha`, a non-header row labelled `Referência` whose
value contains ` / ` contributes exactly two adjacent fields, the first and the
second piece of the value split on ` / `, in that order; the value `2020 / 03`
gives `2020` then `03`. -/
theorem C2_referencia_row (i : Nat) (s : Selection) (item : List String)
    (hi : i ≠ 0) (hl : s.firstTd = "Referência")
    (hv : (" / " : String).data <:+: s.nextTd.data) :
    (∃ p0 p1 rest, Split s.nextTd " / " = p0 :: p1 :: rest ∧
        itemFolhaRow i s item = .ok (item ++ [p0, p1])) ∧
      (s.nextTd = "2020 / 03" → itemFolhaRow i s item = .ok (item ++ ["2020", "03"])) := by
  have hex := exists_Split_barra s.nextTd hv
  obtain ⟨p0, p1, rest, hsp⟩ := hex
  have hr : itemFolhaRow i s item = .ok (item ++ [p0, p1]) := by
    rw [itemFolhaRow_referencia i s item hi hl, hsp]
    rfl
  refine ⟨⟨p0, p1, rest, hsp, hr⟩, ?_⟩
  intro hval
  rw [hval] at hsp
  have e : Split "2020 / 03" " / " = ["2020", "03"] := by decide
  rw [e] at hsp
  simp only [List.cons.injEq] at hsp
  rw [hr, ← hsp.1, ← hsp.2.1]

/-- Witness for the reference row: the row `Referência`, `2020 / 03`. -/
theorem C2_referencia_row_witness :
    (1 ≠ 0 ∧ (" / " : String).data <:+: ("2020 / 03" : String).data) ∧
      itemFolhaRow 1 ⟨none, "Referência", "2020 / 03"⟩ ["x"] =
        .ok (["x"] ++ ["2020", "03"]) :=
  ⟨⟨by decide, ⟨"2020".data, "03".data, rfl⟩⟩,
    (C2_referencia_row 1 ⟨none, "Referência", "2020 / 03"⟩ ["x"] (by decide) rfl
      ⟨"2020".data, "03".data, rfl⟩).2 rfl⟩

/-- A row after the header appends its contribution, and panics on the index 1 of
a one-element slice where there is none. -/
theorem itemFolhaRow_eq_contribuicao (i : Nat) (s : Selection) (item : List String)
    (hi : i ≠ 0) :
    itemFolhaRow i s item =
      match contribuicao s with
      | some a => .ok (item ++ a)
      | none => .error (.panicIndex 1 1) := by
  by_cases h1 : s.firstTd = "CPF"
  · simp [itemFolhaRow, contribuicao, hi, h1]
  by_cases h2 : s.firstTd = "Referência"
  · rw [itemFolhaRow_referencia i s item hi h2]
    simp only [contribuicao, if_neg h1, if_pos h2]
    by_cases hv : (" / " : String).data <:+: s.nextTd.data
    · obtain ⟨p0, p1, rest, hsp⟩ := exists_Split_barra _ hv
      rw [hsp]
      rfl
    · rw [Split_barra_single_piece _ hv]
      rfl
  by_cases h3 : s.firstTd ∈ camposDinheiro
  · simp only [contribuicao, if_neg h1, if_neg h2, if_pos h3]
    by_cases hv : ' ' ∈ s.nextTd.data
    · rw [itemFolhaRow_dinheiro_ok i s item hi h3 hv, if_pos hv]
    · rw [itemFolhaRow_dinheiro i s item hi h3, Split_space_single_piece _ hv, if_neg hv]
      rfl
  · have h4 : camposDinheiro.contains s.firstTd = false := by
      simpa using h3
    simp [itemFolhaRow, contribuicao, hi, h1, h2, h3, h4]

/-! ## The record of ImprimeItemFolha -/

/-- The rows after the header append the concatenation of their contributions. -/
theorem eachFrom_itemFolhaRow (ss : List Selection) (i : Nat) (item : List String)
    (hi : i ≠ 0) :
    eachFrom itemFolhaRow i ss item =
      match registro ss with
      | some r => .ok (item ++ r)
      | none => .error (.panicIndex 1 1) := by
  induction ss generalizing i item with
  | nil => simp [eachFrom, registro]
  | cons s ss ih =>
    rw [eachFrom, itemFolhaRow_eq_contribuicao i s item hi]
    cases hc : contribuicao s with
    | none => simp [registro, hc]
    | some a =>
      simp only [registro, hc]
      rw [ih (i + 1) (item ++ a) (Nat.succ_ne_zero i)]
      cases registro ss with
      | none => rfl
      | some b => simp

theorem itemFolha_eq_registro (doc : Document) :
    itemFolha doc =
      match registro doc.tail with
      | some r => .ok r
      | none => .error (.panicIndex 1 1) := by
  cases doc with
  | nil => rfl
  | cons cab linhas =>
    have h0 : itemFolhaRow 0 cab [] = .ok [] := rfl
    simp only [itemFolha, Each, eachFrom, h0, List.tail_cons]
    rw [eachFrom_itemFolhaRow linhas 1 [] (by decide)]
    cases registro linhas <;> simp

theorem registro_filter_CPF (ss : List Selection) :
    registro (ss.filter (fun s => decide (s.firstTd ≠ "CPF"))) = registro ss := by
  induction ss with
  | nil => rfl
  | cons s ss ih =>
    by_cases h : s.firstTd = "CPF"
    · have hc : contribuicao s = some [] := by simp [contribuicao, h]
      simp only [List.filter, h, ne_eq, not_true_eq_false, decide_False, registro, hc, ih]
      cases registro ss <;> simp
    · simp only [List.filter, h, ne_eq, not_false_eq_true, decide_True, registro, ih]

theorem contribuicao_eq_none_iff (s : Selection) :
    contribuicao s = none ↔ malFormada s := by
  unfold malFormada
  by_cases h1 : s.firstTd = "CPF"
  · have h2 : s.firstTd ≠ "Referência" := by rw [h1]; decide
    have h3 : s.firstTd ∉ camposDinheiro := by rw [h1]; decide
    have hc : contribuicao s = some [] := by simp [contribuicao, h1]
    rw [hc]
    simp [h2, h3]
  by_cases h2 : s.firstTd = "Referência"
  · have h3 : s.firstTd ∉ camposDinheiro := by rw [h2]; decide
    simp only [contribuicao, if_neg h1, if_pos h2, h3, false_and, or_false]
    by_cases hv : (" / " : String).data <:+: s.nextTd.data
    · obtain ⟨p0, p1, rest, hsp⟩ := exists_Split_barra _ hv
      rw [hsp]
      simp [hv]
    · rw [Split_barra_single_piece _ hv]
      simp [hv, h2]
  by_cases h3 : s.firstTd ∈ camposDinheiro
  · by_cases hv : ' ' ∈ s.nextTd.data <;> simp [contribuicao, h1, h2, h3, hv]
  · simp [contribuicao, h1, h2, h3]

theorem registro_eq_none_iff (ss : List Selection) :
    registro ss = none ↔ ∃ s ∈ ss, malFormada s := by
  induction ss with
  | nil => simp [registro]
  | cons s ss ih =>
    cases hc : contribuicao s with
    | none =>
      have hm := (contribuicao_eq_none_iff s).mp hc
      simp only [registro, hc, true_iff]
      exact ⟨s, List.mem_cons_self _ _, hm⟩
    | some a =>
      have hm : ¬ malFormada s := by
        intro h
        rw [(contribuicao_eq_none_iff s).mpr h] at hc
        exact Option.noConfusion hc
      cases hr : registro ss with
      | none =>
        simp only [registro, hc, hr, true_iff]
        obtain ⟨t, ht, hbad⟩ := ih.mp hr
        exact ⟨t, List.mem_cons_of_mem _ ht, hbad⟩
      | some b =>
        simp only [registro, hc, hr]
        refine ⟨fun h => Option.noConfusion h, ?_⟩
        rintro ⟨t, ht, hbad⟩
        rcases List.mem_cons.mp ht with e | e
        · exact absurd (e ▸ hbad) hm
        · have := ih.mpr ⟨t, e, hbad⟩
          rw [hr] at this
          exact Option.noConfusion this

/-- Claim C3: the record built by `ImprimeItemFolha` from a table equals the
record built from the same table with every non-header row labelled `CPF`
removed, whatever the values of those rows. -/
theorem C3_cpf_rows_omitted (doc : Document) :
    itemFolha doc = itemFolha (semCPF doc) := by
  cases doc with
  | nil => rfl
  | cons cab linhas =>
    rw [itemFolha_eq_registro, itemFolha_eq_registro]
    simp only [semCPF, List.tail_cons]
    rw [registro_filter_CPF]

/-- Claim C4: the record of `ImprimeItemFolha` is the concatenation, in row order,
of the contributions of the rows after the header row (the run panics exactly where
a contribution is undefined); the rows header, `Referência: 2021 / 01`,
`Matrícula: 007`, `Abono: R$ 100,00` give the record `2021, 01, 007, 100.00`. -/
theorem C4_record_is_concatenation (doc : Document) :
    (itemFolha doc =
        match registro doc.tail with
        | some r => .ok r
        | none => .error (.panicIndex 1 1)) ∧
      (∀ (web : Web) (pagina : String) (w : World), baixa web pagina = .ok doc →
        ImprimeItemFolha web pagina w =
          match registro doc.tail with
          | some r => (.ok (), ⟨w.requests ++ [pagina], w.stdout, w.csv ++ [r]⟩)
          | none => (.error (.panicIndex 1 1), ⟨w.requests ++ [pagina], w.stdout, w.csv⟩)) ∧
      ∀ cab : Selection,
        itemFolha [cab, ⟨none, "Referência", "2021 / 01"⟩, ⟨none, "Matrícula", "007"⟩,
          ⟨none, "Abono", "R$ 100,00"⟩] = .ok ["2021", "01", "007", "100.00"] := by
  refine ⟨itemFolha_eq_registro doc, ?_, ?_⟩
  · intro web pagina w hb
    have h := itemFolha_eq_registro doc
    unfold itemFolha at h
    simp only [ImprimeItemFolha, hb, h]
    cases registro doc.tail <;> rfl
  · intro cab
    rw [itemFolha_eq_registro]
    rfl

/-- Claim C9: the row loop of `ImprimeItemFolha` panics with an index out of range
exactly when some row after the header is labelled `Referência` with a value
without ` / `, or has a monetary label with a value without a space; when no row
is so, the loop returns a record and the accesses at index 1 are in range. -/
theorem C9_panic_iff_malformed (doc : Document) :
    (itemFolha doc = .error (.panicIndex 1 1) ↔ ∃ s ∈ doc.tail, malFormada s) ∧
      ((∃ e, itemFolha doc = .error e) ↔ ∃ s ∈ doc.tail, malFormada s) ∧
      ((¬ ∃ s ∈ doc.tail, malFormada s) →
        (∃ item, itemFolha doc = .ok item) ∧
          ∀ s ∈ doc.tail,
            (s.firstTd = "Referência" → ∃ x, index (Split s.nextTd " / ") 1 = .ok x) ∧
              (s.firstTd ∈ camposDinheiro → ∃ x, index (Split s.nextTd " ") 1 = .ok x)) := by
  have hreg := registro_eq_none_iff doc.tail
  have hit := itemFolha_eq_registro doc
  refine ⟨?_, ?_, ?_⟩
  · rw [← hreg, hit]
    cases registro doc.tail <;> simp
  · rw [← hreg, hit]
    cases registro doc.tail <;> simp
  · intro hgood
    refine ⟨?_, ?_⟩
    · rw [hit]
      cases hr : registro doc.tail with
      | none => exact absurd (hreg.mp hr) hgood
      | some r => exact ⟨r, rfl⟩
    · intro s hs
      have hs2 : ¬ malFormada s := fun h => hgood ⟨s, hs, h⟩
      unfold malFormada at hs2
      refine ⟨?_, ?_⟩
      · intro hl
        have hv : (" / " : String).data <:+: s.nextTd.data := by
          by_contra hv
          exact hs2 (Or.inl ⟨hl, hv⟩)
        obtain ⟨p0, p1, rest, hsp⟩ := exists_Split_barra _ hv
        exact ⟨p1, by rw [hsp]; rfl⟩
      · intro hl
        have hv : ' ' ∈ s.nextTd.data := by
          by_contra hv
          exact hs2 (Or.inr ⟨hl, hv⟩)
        refine ⟨String.mk (segundoToken s.nextTd.data), ?_⟩
        simp only [index, get?_one_Split_space _ hv]

/-! ## The pattern matcher -/

theorem starLoop_isSome_of_cont (cls : Char → Bool) (k : List Char → Option (List Char))
    (s : List Char) (h : (k s).isSome = true) : (starLoop cls k s).isSome = true := by
  cases s with
  | nil => simpa [starLoop] using h
  | cons x xs =>
    by_cases hx : cls x = true
    · simp only [starLoop, hx, if_true]
      cases starLoop cls k xs with
      | none => exact h
      | some m => rfl
    · simp only [starLoop, hx]
      exact h

theorem starLoop_complete (cls : Char → Bool) (k : List Char → Option (List Char))
    (a s : List Char) (ha : ∀ x ∈ a, cls x = true) (h : (k s).isSome = true) :
    (starLoop cls k (a ++ s)).isSome = true := by
  induction a with
  | nil => exact starLoop_isSome_of_cont cls k s h
  | cons x xs ih =>
    have hx : cls x = true := ha x (List.mem_cons_self _ _)
    have ih2 := ih (fun y hy => ha y (List.mem_cons_of_mem _ hy))
    simp only [List.cons_append, starLoop, hx, if_true]
    cases hs : starLoop cls k (xs ++ s) with
    | none => rw [hs] at ih2; exact absurd ih2 (by simp)
    | some m => rfl

theorem starLoop_sound (cls : Char → Bool) (k : List Char → Option (List Char))
    (Q : List Char → Prop) (hk : ∀ s m, k s = some m → Q m ∧ m <+: s) (s m : List Char)
    (h : starLoop cls k s = some m) :
    (∃ a b, m = a ++ b ∧ (∀ x ∈ a, cls x = true) ∧ Q b) ∧ m <+: s := by
  induction s generalizing m with
  | nil =>
    simp only [starLoop] at h
    obtain ⟨h1, h2⟩ := hk _ _ h
    exact ⟨⟨[], m, rfl, by simp, h1⟩, h2⟩
  | cons x xs ih =>
    have hstop : k (x :: xs) = some m →
        (∃ a b, m = a ++ b ∧ (∀ x ∈ a, cls x = true) ∧ Q b) ∧ m <+: x :: xs := by
      intro h0
      obtain ⟨h1, h2⟩ := hk _ _ h0
      exact ⟨⟨[], m, rfl, by simp, h1⟩, h2⟩
    by_cases hx : cls x = true
    · simp only [starLoop, hx, if_true] at h
      cases hs : starLoop cls k xs with
      | none => rw [hs] at h; exact hstop h
      | some m1 =>
        rw [hs] at h
        simp only [Option.some.injEq] at h
        obtain ⟨⟨a, b, hab, ha, hb⟩, hp⟩ := ih m1 hs
        subst h
        refine ⟨⟨x :: a, b, by simp [hab], ?_, hb⟩, ?_⟩
        · intro y hy
          rcases List.mem_cons.mp hy with e | e
          · rw [e]; exact hx
          · exact ha y e
        · obtain ⟨t, ht⟩ := hp
          exact ⟨t, by simp [← ht]⟩
    · simp only [starLoop, hx] at h
      exact hstop h

/-- The matcher only returns texts of the pattern, found at the start of the input. -/
theorem matchHere_sound (re : List Item) (s m : List Char) (h : matchHere re s = some m) :
    Lang re m ∧ m <+: s := by
  induction re generalizing s m with
  | nil =>
    simp only [matchHere, Option.some.injEq] at h
    subst h
    exact ⟨rfl, List.nil_prefix⟩
  | cons it rest ih =>
    cases it with
    | lit c =>
      cases s with
      | nil => simp [matchHere] at h
      | cons x xs =>
        by_cases hx : x = c
        · simp only [matchHere, hx, if_true] at h
          cases hm : matchHere rest xs with
          | none => rw [hm] at h; simp at h
          | some m1 =>
            rw [hm] at h
            simp only [Option.map_some', Option.some.injEq] at h
            obtain ⟨h1, h2⟩ := ih xs m1 hm
            subst h
            refine ⟨⟨m1, rfl, h1⟩, ?_⟩
            obtain ⟨t, ht⟩ := h2
            exact ⟨t, by simp [hx, ← ht]⟩
        · simp [matchHere, hx] at h
    | star cls =>
      simp only [matchHere] at h
      exact starLoop_sound cls (matchHere rest) (Lang rest) ih s m h

/-- The matcher finds a match wherever a text of the pattern starts the input. -/
theorem matchHere_complete (re : List Item) (m post : List Char) (h : Lang re m) :
    (matchHere re (m ++ post)).isSome = true := by
  induction re generalizing m with
  | nil => simp [matchHere]
  | cons it rest ih =>
    cases it with
    | lit c =>
      obtain ⟨m1, hm, h1⟩ := h
      subst hm
      have := ih m1 h1
      simp only [List.cons_append, matchHere, if_true]
      cases hr : matchHere rest (m1 ++ post) with
      | none => rw [hr] at this; exact absurd this (by simp)
      | some r => rfl
    | star cls =>
      obtain ⟨a, b, hm, ha, hb⟩ := h
      subst hm
      simp only [matchHere, List.append_assoc]
      exact starLoop_complete cls (matchHere rest) a (b ++ post) ha (ih b hb)

/-- The search returns nothing exactly when no part of the input is a text of the
pattern. -/
theorem findFirst_eq_none_iff (re : List Item) (s : List Char) :
    findFirst re s = none ↔ ∀ m, m <:+: s → ¬ Lang re m := by
  induction s with
  | nil =>
    simp only [findFirst]
    constructor
    · intro h m hm hl
      have e : m = [] := List.eq_nil_of_infix_nil hm
      subst e
      have := matchHere_complete re [] [] hl
      rw [List.append_nil, h] at this
      exact absurd this (by simp)
    · intro h
      cases hm : matchHere re [] with
      | none => rfl
      | some m =>
        obtain ⟨h1, h2⟩ := matchHere_sound re [] m hm
        exact absurd h1 (h m h2.isInfix)
  | cons x xs ih =>
    simp only [findFirst]
    constructor
    · intro h m hm hl
      cases hh : matchHere re (x :: xs) with
      | some r => rw [hh] at h; exact Option.noConfusion h
      | none =>
        rw [hh] at h
        rcases List.infix_cons_iff.mp hm with hp | hi
        · obtain ⟨t, ht⟩ := hp
          have := matchHere_complete re m t hl
          rw [ht, hh] at this
          exact absurd this (by simp)
        · exact ih.mp h m hi hl
    · intro h
      cases hh : matchHere re (x :: xs) with
      | some r =>
        obtain ⟨h1, h2⟩ := matchHere_sound re _ r hh
        exact absurd h1 (h r h2.isInfix)
      | none =>
        exact ih.mpr (fun m hm hl => h m (List.infix_cons hm) hl)

/-- What the search returns is a text of the pattern standing in the input, and
no text of the pattern starts further left. -/
theorem findFirst_sound (re : List Item) (s m : List Char) (h : findFirst re s = some m) :
    ∃ pre post, s = pre ++ m ++ post ∧ Lang re m ∧
      ∀ pre1 m1 post1, s = pre1 ++ m1 ++ post1 → Lang re m1 → pre.length ≤ pre1.length := by
  induction s with
  | nil =>
    simp only [findFirst] at h
    obtain ⟨h1, h2⟩ := matchHere_sound re [] m h
    obtain ⟨t, ht⟩ := h2
    exact ⟨[], t, by simp [ht], h1, fun _ _ _ _ _ => Nat.zero_le _⟩
  | cons x xs ih =>
    simp only [findFirst] at h
    cases hh : matchHere re (x :: xs) with
    | some r =>
      rw [hh] at h
      simp only [Option.some.injEq] at h
      subst h
      obtain ⟨h1, h2⟩ := matchHere_sound re _ r hh
      obtain ⟨t, ht⟩ := h2
      exact ⟨[], t, by simp [ht], h1, fun _ _ _ _ _ => Nat.zero_le _⟩
    | none =>
      rw [hh] at h
      obtain ⟨pre, post, hs, hl, hleft⟩ := ih h
      refine ⟨x :: pre, post, by simp [hs], hl, ?_⟩
      intro pre1 m1 post1 hs1 hl1
      cases pre1 with
      | nil =>
        have := matchHere_complete re m1 post1 hl1
        simp only [List.nil_append] at hs1
        rw [← hs1, hh] at this
        exact absurd this (by simp)
      | cons y ys =>
        simp only [List.cons_append, List.cons.injEq] at hs1
        have := hleft ys m1 post1 hs1.2 hl1
        simp only [List.length_cons]
        omega

theorem HasSuffix_iff (s suffix : String) :
    HasSuffix s suffix = true ↔ suffix.data <:+ s.data := by
  simp only [HasSuffix, Bool.and_eq_true, decide_eq_true_eq]
  constructor
  · rintro ⟨_, h2⟩
    rw [← h2]
    exact List.drop_suffix _ _
  · rintro ⟨t, ht⟩
    rw [← ht]
    refine ⟨by simp, ?_⟩
    have e : (t ++ suffix.data).length - suffix.data.length = t.length := by simp
    rw [e, List.drop_left]

theorem HasSuffix_empty (s : String) : HasSuffix s "" = true :=
  (HasSuffix_iff s "").mpr ⟨s.data, by simp⟩

/-! ## ImprimeLinks -/

theorem linksRow_some (ano : String) (i : Nat) (s : Selection) (st : Nat × List String)
    (val : String) (hv : s.onclick = some val) :
    linksRow ano i s st =
      if ano.data <:+ (FindString reLinks val).data then
        .ok (st.1 + 1, st.2 ++ [FindString reLinks val])
      else .ok st := by
  by_cases h : ano.data <:+ (FindString reLinks val).data
  · have h2 := (HasSuffix_iff _ _).mpr h
    simp [linksRow, hv, h, h2]
  · have h2 : ¬ HasSuffix (FindString reLinks val) ano = true :=
      fun e => h ((HasSuffix_iff _ _).mp e)
    simp [linksRow, hv, h, h2]

theorem eachFrom_linksRow (ano : String) (doc : Document) (i : Nat)
    (st : Nat × List String) :
    eachFrom (linksRow ano) i doc st =
      .ok (st.1 + (mantidos doc ano).length, st.2 ++ mantidos doc ano) := by
  induction doc generalizing i st with
  | nil => simp [eachFrom, mantidos]
  | cons s ss ih =>
    cases hv : s.onclick with
    | none =>
      have e : linksRow ano i s st = .ok st := by simp [linksRow, hv]
      have e2 : mantidos (s :: ss) ano = mantidos ss ano := by simp [mantidos, hv]
      rw [eachFrom, e, e2]
      exact ih (i + 1) st
    | some val =>
      rw [eachFrom, linksRow_some ano i s st val hv]
      by_cases h : ano.data <:+ (FindString reLinks val).data
      · have e2 : mantidos (s :: ss) ano = FindString reLinks val :: mantidos ss ano := by
          simp [mantidos, hv, h]
        rw [if_pos h, e2]
        simp only []
        rw [ih (i + 1)]
        simp only [List.length_cons, List.append_assoc, List.singleton_append]
        congr 2
        omega
      · have e2 : mantidos (s :: ss) ano = mantidos ss ano := by
          simp [mantidos, hv, h]
        rw [if_neg h, e2]
        exact ih (i + 1) st

theorem links_eq_mantidos (doc : Document) (ano : String) :
    links doc ano = .ok ((mantidos doc ano).length, mantidos doc ano) := by
  simp [links, Each, eachFrom_linksRow]

theorem ImprimeLinks_eq (web : Web) (pagina ano : String) (w : World) :
    ImprimeLinks web pagina ano w =
      match baixa web pagina with
      | .error e =>
        (.error e, ⟨w.requests ++ [pagina], w.stdout, w.csv⟩)
      | .ok doc =>
        (.ok (mantidos doc ano).length,
          ⟨w.requests ++ [pagina], w.stdout ++ mantidos doc ano, w.csv⟩) := by
  simp only [ImprimeLinks, links_eq_mantidos]

theorem mantidos_empty_ano (doc : Document) :
    mantidos doc "" = (doc.filterMap (fun s => s.onclick)).map (FindString reLinks) := by
  have e : ("" : String).data = [] := rfl
  simp [mantidos, e]

theorem length_filterMap_onclick (doc : Document) :
    (doc.filterMap (fun s => s.onclick)).length =
      (doc.filter (fun s => s.onclick.isSome)).length := by
  induction doc with
  | nil => rfl
  | cons s ss ih =>
    cases hv : s.onclick with
    | none => simp [List.filterMap_cons, List.filter, hv, ih]
    | some val => simp [List.filterMap_cons, List.filter, hv, ih]

/-- Claim C6: in `ImprimeLinks`, for a row that has an `onclick` attribute, the
link extracted from it (the leftmost greedy match of `reLinks` in the attribute
value) is printed and counted if and only if it ends with the requested year; with
the empty year every extracted link is kept.  The link is empty when the value has
no match, and otherwise is a text of the pattern at the leftmost place of the value
where one starts. -/
theorem C6_link_kept_iff_suffix (ano : String) (i : Nat) (s : Selection)
    (st : Nat × List String) (val : String) (hv : s.onclick = some val) :
    (linksRow ano i s st = .ok (st.1 + 1, st.2 ++ [FindString reLinks val]) ↔
        ano.data <:+ (FindString reLinks val).data) ∧
      (linksRow ano i s st = .ok st ↔ ¬ ano.data <:+ (FindString reLinks val).data) ∧
      linksRow "" i s st = .ok (st.1 + 1, st.2 ++ [FindString reLinks val]) ∧
      ((FindString reLinks val = "" ∧ semMatch reLinks val) ∨
        (Lang reLinks (FindString reLinks val).data ∧
          ∃ pre post, val.data = pre ++ (FindString reLinks val).data ++ post ∧
            ∀ pre1 m1 post1, val.data = pre1 ++ m1 ++ post1 → Lang reLinks m1 →
              pre.length ≤ pre1.length)) := by
  have hrow := linksRow_some ano i s st val hv
  have hne : (Except.ok (st.1 + 1, st.2 ++ [FindString reLinks val]) :
      Except Failure (Nat × List String)) ≠ .ok st := by
    intro e
    have e2 := congrArg Prod.fst (Except.ok.inj e)
    simp at e2
  refine ⟨?_, ?_, ?_, ?_⟩
  · by_cases h : ano.data <:+ (FindString reLinks val).data
    · simp [hrow, h]
    · rw [hrow, if_neg h]
      exact ⟨fun e => absurd e.symm hne, fun e => absurd e h⟩
  · by_cases h : ano.data <:+ (FindString reLinks val).data
    · rw [hrow, if_pos h]
      exact ⟨fun e => absurd e hne, fun e => absurd h e⟩
    · simp [hrow, h]
  · rw [linksRow_some "" i s st val hv, if_pos ⟨_, List.append_nil _⟩]
  · cases hf : findFirst reLinks val.data with
    | none =>
      left
      exact ⟨by simp [FindString, hf], (findFirst_eq_none_iff _ _).mp hf⟩
    | some m =>
      right
      obtain ⟨pre, post, hs, hl, hleft⟩ := findFirst_sound _ _ _ hf
      have e : (FindString reLinks val).data = m := by simp [FindString, hf]
      rw [e]
      exact ⟨hl, pre, post, hs, hleft⟩

/-- Witness for the year filter: a row whose link ends with `2020`. -/
theorem C6_link_kept_iff_suffix_witness :
    (Selection.mk (some "location='http://x/?ano=2020'") "" "").onclick =
        some "location='http://x/?ano=2020'" ∧
      linksRow "2020" 0 ⟨some "location='http://x/?ano=2020'", "", ""⟩ (0, []) =
        .ok (1, ["http://x/?ano=2020"]) ∧
      linksRow "2019" 0 ⟨some "location='http://x/?ano=2020'", "", ""⟩ (0, []) =
        .ok (0, []) ∧
      FindString reLinks "go('http://a/?ano=1&u=http://b/?ano=22x')" =
        "http://a/?ano=1&u=http://b/?ano=22" :=
  ⟨rfl,
    (C6_link_kept_iff_suffix "2020" 0 ⟨some "location='http://x/?ano=2020'", "", ""⟩
      (0, []) "location='http://x/?ano=2020'" rfl).1.mpr (by decide),
    (C6_link_kept_iff_suffix "2019" 0 ⟨some "location='http://x/?ano=2020'", "", ""⟩
      (0, []) "location='http://x/?ano=2020'" rfl).2.1.mpr (by decide),
    by decide⟩

/-- Claim C8: `ImprimeLinks` returns exactly the number of links it printed, one
line per kept link in row order; on a page with no matching row it prints nothing
and returns 0. -/
theorem C8_count_is_lines_printed (web : Web) (pagina ano : String) (w : World) :
    (ImprimeLinks web pagina ano w =
        match baixa web pagina with
        | .error e =>
          (.error e, ⟨w.requests ++ [pagina], w.stdout, w.csv⟩)
        | .ok doc =>
          (.ok (mantidos doc ano).length,
            ⟨w.requests ++ [pagina], w.stdout ++ mantidos doc ano, w.csv⟩)) ∧
      ∀ doc : Document,
        links doc ano = .ok ((mantidos doc ano).length, mantidos doc ano) ∧
          ((∀ s ∈ doc, ∀ val, s.onclick = some val →
              ¬ ano.data <:+ (FindString reLinks val).data) →
            links doc ano = .ok (0, []) ∧
              (baixa web pagina = .ok doc →
                ImprimeLinks web pagina ano w =
                  (.ok 0, ⟨w.requests ++ [pagina], w.stdout, w.csv⟩))) := by
  refine ⟨ImprimeLinks_eq web pagina ano w, ?_⟩
  intro doc
  refine ⟨links_eq_mantidos doc ano, ?_⟩
  intro hnone
  have e : mantidos doc ano = [] := by
    simp only [mantidos, List.filter_eq_nil_iff, List.mem_map, List.mem_filterMap,
      decide_eq_true_eq]
    rintro link ⟨val, ⟨s, hs, hval⟩, rfl⟩
    exact hnone s hs val hval
  refine ⟨by rw [links_eq_mantidos, e]; rfl, ?_⟩
  intro hb
  rw [ImprimeLinks_eq, hb]
  simp only [e, List.length_nil, List.append_nil]

/-- Claim C10: a row with an `onclick` attribute whose value contains no match of
`reLinks` yields the empty link; with the empty year it is still counted and an
empty line is printed, so that the count returned is the number of rows that have
an `onclick` attribute; with a non-empty year it is neither counted nor printed. -/
theorem C10_row_without_match (val : String) (hno : semMatch reLinks val) :
    FindString reLinks val = "" ∧
      (∀ (i : Nat) (s : Selection) (st : Nat × List String), s.onclick = some val →
        linksRow "" i s st = .ok (st.1 + 1, st.2 ++ [""])) ∧
      (∀ (ano : String) (i : Nat) (s : Selection) (st : Nat × List String),
        ano ≠ "" → s.onclick = some val → linksRow ano i s st = .ok st) ∧
      (∀ doc : Document, ∃ out,
        links doc "" = .ok ((doc.filter (fun s => s.onclick.isSome)).length, out) ∧
          out.length = (doc.filter (fun s => s.onclick.isSome)).length) := by
  have hf : FindString reLinks val = "" := by
    have := (findFirst_eq_none_iff reLinks val.data).mpr hno
    simp [FindString, this]
  refine ⟨hf, ?_, ?_, ?_⟩
  · intro i s st hv
    rw [linksRow_some "" i s st val hv, hf, if_pos ⟨_, List.append_nil _⟩]
  · intro ano i s st hano hv
    rw [linksRow_some ano i s st val hv, hf]
    have h : ¬ ano.data <:+ ("" : String).data := by
      intro hs
      have e : ano.data = [] := List.eq_nil_of_suffix_nil hs
      exact hano (String.ext e)
    rw [if_neg h]
  · intro doc
    refine ⟨mantidos doc "", ?_, ?_⟩
    · rw [links_eq_mantidos, mantidos_empty_ano, List.length_map, length_filterMap_onclick]
    · rw [mantidos_empty_ano, List.length_map, length_filterMap_onclick]

/-- Witness for the row without a match: the attribute value `alert(1)`. -/
theorem C10_row_without_match_witness :
    semMatch reLinks "alert(1)" ∧ FindString reLinks "alert(1)" = "" ∧
      linksRow "" 3 ⟨some "alert(1)", "", ""⟩ (2, ["a", "b"]) = .ok (3, ["a", "b", ""]) ∧
      linksRow "2020" 3 ⟨some "alert(1)", "", ""⟩ (2, ["a", "b"]) = .ok (2, ["a", "b"]) :=
  have h : semMatch reLinks "alert(1)" :=
    (findFirst_eq_none_iff reLinks ("alert(1)" : String).data).mp (by decide)
  ⟨h, (C10_row_without_match "alert(1)" h).1,
    (C10_row_without_match "alert(1)" h).2.1 3 ⟨some "alert(1)", "", ""⟩ (2, ["a", "b"]) rfl,
    (C10_row_without_match "alert(1)" h).2.2.1 "2020" 3 ⟨some "alert(1)", "", ""⟩
      (2, ["a", "b"]) (by decide) rfl⟩

/-! ## The loops of main -/

theorem incInt_natCast (p : Nat) (h : p + 1 < 2 ^ 63) :
    incInt (p : Int) = ((p + 1 : Nat) : Int) := by
  unfold incInt
  push_cast
  omega

/-- The loop started at page `start`, when the pages `start .. start + d - 1` all
have kept links and the page `start + d` has none. -/
theorem extrairLinksLoop_from (web : Web) (ano : String) (pages : Nat → Document)
    (d : Nat) (start fuel : Nat) (w : World)
    (hmax : start + d < 2 ^ 63)
    (hdoc : ∀ p, start ≤ p → p ≤ start + d → baixa web (paginaURL (p : Int)) = .ok (pages p))
    (hpos : ∀ p, start ≤ p → p < start + d → mantidos (pages p) ano ≠ [])
    (hzero : mantidos (pages (start + d)) ano = [])
    (hfuel : d + 1 ≤ fuel) :
    extrairLinksLoop web ano fuel (start : Int) w =
      some (.ok (),
        ⟨w.requests ++ (List.range' start (d + 1)).map (fun p => paginaURL (p : Int)),
          w.stdout ++ (List.range' start d).flatMap (fun p => mantidos (pages p) ano),
          w.csv⟩) := by
  induction d generalizing start fuel w with
  | zero =>
    cases fuel with
    | zero => omega
    | succ f =>
      have hb := hdoc start (Nat.le_refl _) (Nat.le_refl _)
      have hz : mantidos (pages start) ano = [] := hzero
      simp [extrairLinksLoop, ImprimeLinks_eq, hb, hz]
  | succ d ih =>
    cases fuel with
    | zero => omega
    | succ f =>
      have hb := hdoc start (Nat.le_refl _) (by omega)
      have hp := hpos start (Nat.le_refl _) (by omega)
      have hlen : 0 < (mantidos (pages start) ano).length := List.length_pos.mpr hp
      have hinc := incInt_natCast start (by omega)
      have hrec := ih (start + 1) f
        ⟨w.requests ++ [paginaURL (start : Int)],
          w.stdout ++ mantidos (pages start) ano, w.csv⟩
        (by omega)
        (fun p h1 h2 => hdoc p (by omega) (by omega))
        (fun p h1 h2 => hpos p (by omega) (by omega))
        (by rw [show start + 1 + d = start + (d + 1) by omega]; exact hzero)
        (by omega)
      simp only [extrairLinksLoop, ImprimeLinks_eq, hb, hlen, gt_iff_lt, if_true, hinc]
      rw [hrec]
      simp [List.range'_succ, List.flatMap_cons]

/-- Claim C7: the link loop of `main` requests the pages 1, 2, 3, ... in order and
stops right after the first page on which `ImprimeLinks` returns 0: whenever
`ImprimeLinks` returns 0 on some page `k`, the loop terminates, and with `j` the
least such page exactly the pages `1 .. j` are requested and the kept links of the
pages `1 .. j - 1` are printed in page order. -/
theorem C7_loop_stops_at_first_empty_page (web : Web) (ano : String)
    (pages : Nat → Document) (k : Nat) (w : World)
    (hk1 : 1 ≤ k) (hmax : k < 2 ^ 63)
    (hdoc : ∀ p, 1 ≤ p → p ≤ k → baixa web (paginaURL (p : Int)) = .ok (pages p))
    (hzero : (ImprimeLinks web (paginaURL (k : Int)) ano w).1 = .ok 0) :
    ∃ j, 1 ≤ j ∧ j ≤ k ∧
      (∀ w1, (ImprimeLinks web (paginaURL (j : Int)) ano w1).1 = .ok 0) ∧
      (∀ p, 1 ≤ p → p < j →
        ∀ w1, ∃ n, 0 < n ∧ (ImprimeLinks web (paginaURL (p : Int)) ano w1).1 = .ok n) ∧
      ∀ fuel, j ≤ fuel →
        extrairLinksMain web ano fuel w =
          some (.ok (),
            ⟨w.requests ++ (List.range' 1 j).map (fun p => paginaURL (p : Int)),
              w.stdout ++ (List.range' 1 (j - 1)).flatMap (fun p => mantidos (pages p) ano),
              w.csv⟩) := by
  have hz : mantidos (pages k) ano = [] := by
    rw [ImprimeLinks_eq, hdoc k hk1 (Nat.le_refl _)] at hzero
    simp only [Except.ok.injEq] at hzero
    exact List.length_eq_zero.mp hzero
  have hex : ∃ d, mantidos (pages (1 + d)) ano = [] :=
    ⟨k - 1, by rw [show 1 + (k - 1) = k by omega]; exact hz⟩
  have hd := Nat.find_spec hex
  have hmin : ∀ m, m < Nat.find hex → mantidos (pages (1 + m)) ano ≠ [] :=
    fun m hm => Nat.find_min hex hm
  have hle : Nat.find hex ≤ k - 1 :=
    Nat.find_min' hex (by rw [show 1 + (k - 1) = k by omega]; exact hz)
  have hmin2 : ∀ p, 1 ≤ p → p < 1 + Nat.find hex → mantidos (pages p) ano ≠ [] := by
    intro p hp1 hp2
    have := hmin (p - 1) (by omega)
    rwa [show 1 + (p - 1) = p by omega] at this
  refine ⟨1 + Nat.find hex, by omega, by omega, ?_, ?_, ?_⟩
  · intro w1
    rw [ImprimeLinks_eq, hdoc _ (by omega) (by omega)]
    simp only [hd, List.length_nil]
  · intro p hp1 hp2 w1
    refine ⟨(mantidos (pages p) ano).length, List.length_pos.mpr (hmin2 p hp1 hp2), ?_⟩
    rw [ImprimeLinks_eq, hdoc p hp1 (by omega)]
  · intro fuel hfuel
    have h := extrairLinksLoop_from web ano pages (Nat.find hex) 1 fuel w (by omega)
      (fun p h1 h2 => hdoc p h1 (by omega))
      (fun p h1 h2 => hmin2 p h1 (by omega))
      hd (by omega)
    rw [show 1 + Nat.find hex - 1 = Nat.find hex by omega,
      show 1 + Nat.find hex = Nat.find hex + 1 by omega]
    exact h

/-- Witness for the link loop: on the small site the loop requests the pages 1
and 2, prints the link of page 1 and stops. -/
theorem C7_loop_stops_at_first_empty_page_witness :
    ((1 ≤ 2 ∧ 2 < 2 ^ 63) ∧
      (∀ p : Nat, 1 ≤ p → p ≤ 2 →
        baixa webExemplo (paginaURL (p : Int)) = .ok (paginasExemplo p)) ∧
      (ImprimeLinks webExemplo (paginaURL 2) "" ⟨[], [], []⟩).1 = .ok 0) ∧
    extrairLinksMain webExemplo "" 2 ⟨[], [], []⟩ =
      some (.ok (), ⟨[paginaURL 1, paginaURL 2], ["http://x/?ano=2020"], []⟩) := by
  have hdoc : ∀ p : Nat, 1 ≤ p → p ≤ 2 →
      baixa webExemplo (paginaURL (p : Int)) = .ok (paginasExemplo p) := by
    intro p h1 h2
    interval_cases p
    · decide
    · decide
  refine ⟨⟨⟨by decide, by norm_num⟩, hdoc, by decide⟩, ?_⟩
  obtain ⟨j, h1, h2, h3, _, hloop⟩ :=
    C7_loop_stops_at_first_empty_page webExemplo "" paginasExemplo 2 ⟨[], [], []⟩
      (by decide) (by norm_num) hdoc (by decide)
  have hj : j = 2 := by
    interval_cases j
    · exact absurd (h3 ⟨[], [], []⟩) (by decide)
    · rfl
  subst hj
  exact hloop 2 (Nat.le_refl _)

/-- Witness for the panic condition: a `Referência` row without ` / `. -/
theorem C9_panic_iff_malformed_witness :
    itemFolha [⟨none, "", ""⟩, ⟨none, "Referência", "2021"⟩] = .error (.panicIndex 1 1) ∧
      ∃ item, itemFolha [⟨none, "", ""⟩, ⟨none, "Referência", "2021 / 01"⟩] = .ok item :=
  ⟨(C9_panic_iff_malformed [⟨none, "", ""⟩, ⟨none, "Referência", "2021"⟩]).1.mpr
      ⟨⟨none, "Referência", "2021"⟩, List.mem_singleton.mpr rfl,
        Or.inl ⟨rfl, by decide⟩⟩,
    ((C9_panic_iff_malformed [⟨none, "", ""⟩, ⟨none, "Referência", "2021 / 01"⟩]).2.2
      (by
        rintro ⟨s, hs, hbad⟩
        have e : s = ⟨none, "Referência", "2021 / 01"⟩ := List.mem_singleton.mp hs
        subst e
        rcases hbad with ⟨_, h⟩ | ⟨h, _⟩
        · exact h ⟨"2021".data, "01".data, rfl⟩
        · exact absurd h (by decide))).1⟩

theorem csv_ImprimeItemFolha (web : Web) (pagina : String) (w : World) :
    w.csv <+: (ImprimeItemFolha web pagina w).2.csv := by
  unfold ImprimeItemFolha
  cases baixa web pagina with
  | error e => exact List.prefix_refl _
  | ok doc =>
    simp only []
    cases Each doc itemFolhaRow [] with
    | error e => exact List.prefix_refl _
    | ok item => exact List.prefix_append _ _

theorem csv_processarLoop (web : Web) (stdin : List String) (w : World) :
    w.csv <+: (processarLoop web stdin w).2.csv := by
  induction stdin generalizing w with
  | nil => exact List.prefix_refl _
  | cons linha resto ih =>
    have h1 := csv_ImprimeItemFolha web linha w
    unfold processarLoop
    cases hr : ImprimeItemFolha web linha w with
    | mk r w1 =>
      rw [hr] at h1
      cases r with
      | error e => exact h1
      | ok u => exact List.IsPrefix.trans h1 (ih w1)

/-- Claim C5 (code): the header row that record-extraction mode writes first is
`cabecalho`, which has 12 names and agrees with the declared field names of
`PayrollRecord` everywhere but at the eighth, where it has `remunercao` for
`remuneracao`. -/
theorem C5_header_differs_from_declared (web : Web) (stdin : List String) (w : World) :
    (w.csv ++ [cabecalho]) <+: (processarLinksMain web stdin w).2.csv ∧
      (processarLinksMain web [] w).2.csv = w.csv ++ [cabecalho] ∧
      cabecalho.length = 12 ∧
      cabecalho ≠ camposPayrollRecord ∧
      cabecalho.get? 7 = some "remunercao" ∧
      camposPayrollRecord.get? 7 = some "remuneracao" ∧
      cabecalho.eraseIdx 7 = camposPayrollRecord.eraseIdx 7 := by
  refine ⟨?_, rfl, rfl, by decide, rfl, rfl, by decide⟩
  exact csv_processarLoop web stdin ⟨w.requests, w.stdout, w.csv ++ [cabecalho]⟩

/-- Witness for the record: the page of the example table, downloaded from a site
that answers every URL with it. -/
theorem C4_record_is_concatenation_witness :
    ImprimeItemFolha
        (fun _ => some ⟨200, some [⟨none, "Campo", "Valor"⟩,
          ⟨none, "Referência", "2021 / 01"⟩, ⟨none, "Matrícula", "007"⟩,
          ⟨none, "CPF", "000.000.000-00"⟩, ⟨none, "Abono", "R$ 100,00"⟩]⟩)
        "u" ⟨[], [], [cabecalho]⟩ =
      (.ok (), ⟨["u"], [], [cabecalho, ["2021", "01", "007", "100.00"]]⟩) :=
  (C4_record_is_concatenation [⟨none, "Campo", "Valor"⟩,
      ⟨none, "Referência", "2021 / 01"⟩, ⟨none, "Matrícula", "007"⟩,
      ⟨none, "CPF", "000.000.000-00"⟩, ⟨none, "Abono", "R$ 100,00"⟩]).2.1
    (fun _ => some ⟨200, some [⟨none, "Campo", "Valor"⟩,
      ⟨none, "Referência", "2021 / 01"⟩, ⟨none, "Matrícula", "007"⟩,
      ⟨none, "CPF", "000.000.000-00"⟩, ⟨none, "Abono", "R$ 100,00"⟩]⟩)
    "u" ⟨[], [], [cabecalho]⟩ rfl

/-- Witness for the count: page 1 of the small site filtered by the year 2019 has
no matching row, so nothing is printed and 0 is returned. -/
theorem C8_count_is_lines_printed_witness :
    ImprimeLinks webExemplo (paginaURL 1) "2019" ⟨[], ["x"], []⟩ =
      (.ok 0, ⟨[paginaURL 1], ["x"], []⟩) :=
  ((C8_count_is_lines_printed webExemplo (paginaURL 1) "2019" ⟨[], ["x"], []⟩).2
      (paginasExemplo 1)).2
    (by
      intro s hs val hv
      simp only [paginasExemplo, if_true, List.mem_cons, List.mem_singleton,
        List.not_mem_nil, or_false] at hs
      rcases hs with e | e
      · subst e; exact Option.noConfusion hv
      · subst e
        have e2 : val = "location='http://x/?ano=2020'" := (Option.some.inj hv).symm
        subst e2
        decide)
    |>.2 (by decide)

end Folha
